import Mathlib

/-!
Verification of the band/envelope computation of `plotlib.plot_mod`
(function `plot_band`), shallowly embedded over the rationals.

The Python code initialises `lower_y` / `upper_y` to arrays of length
`len(y_data)` filled with `+inf` / `-inf`, then for every `(index, x)` in
`enumerate(x_data)` and every `(x_prime, y_prime)` in `zip(x_data, y_data)`
with `abs(x - x_prime) < width` runs

    if y_prime < lower_y[index]:
        lower_y[index] = y_prime
    elif y_prime > upper_y[index]:
        upper_y[index] = y_prime

and finally forwards `(x_data, lower_y, upper_y)` to `ax.fill_between`.

The ±infinity sentinels are modelled by the three-valued type `XReal`;
the possible `IndexError` when `index ≥ len(y_data)` (the arrays are sized
from `y_data` but indexed by positions of `x_data`) is modelled by `Option`:
`none` is an aborted computation, `some` a normal return.
-/

namespace PlotMod

/-- Extended rationals: the IEEE ±infinity sentinels used by the Python code
together with finite values (idealised as rationals). -/
inductive XReal where
  | negInf : XReal
  | fin : ℚ → XReal
  | posInf : XReal
deriving DecidableEq, Repr

/-- Strict comparison `a < b` on `XReal`, as Python float comparison behaves
on ±inf and finite values. -/
def XReal.blt : XReal → XReal → Bool
  | _, .negInf => false
  | .negInf, _ => true
  | .posInf, _ => false
  | _, .posInf => true
  | .fin a, .fin b => decide (a < b)

/-- Non-strict comparison `a ≤ b` on `XReal` (total order, no NaN arises). -/
def XReal.ble (a b : XReal) : Bool := !(XReal.blt b a)

/-- One execution of the body

    if y_prime < lower_y[index]: lower_y[index] = y_prime
    elif y_prime > upper_y[index]: upper_y[index] = y_prime

on the state `(lower_y[index], upper_y[index])`. -/
def bandStep (yp : ℚ) (s : XReal × XReal) : XReal × XReal :=
  if XReal.blt (.fin yp) s.1 then (.fin yp, s.2)
  else if XReal.blt s.2 (.fin yp) then (s.1, .fin yp)
  else s

/-- The inner loop `for x_prime, y_prime in zip(x_data, y_data)` of
`plot_band`, for a fixed outer index `index` and outer value `x`.
Reading `lower_y[index]` / `upper_y[index]` out of bounds raises
`IndexError`, modelled as `none`. -/
def innerLoop (x width : ℚ) (index : ℕ) :
    List (ℚ × ℚ) → List XReal → List XReal → Option (List XReal × List XReal)
  | [], lower, upper => some (lower, upper)
  | p :: rest, lower, upper =>
    if |x - p.1| < width then
      match lower[index]?, upper[index]? with
      | some lo, some hi =>
        if XReal.blt (.fin p.2) lo then
          innerLoop x width index rest (lower.set index (.fin p.2)) upper
        else if XReal.blt hi (.fin p.2) then
          innerLoop x width index rest lower (upper.set index (.fin p.2))
        else
          innerLoop x width index rest lower upper
      | _, _ => none
    else
      innerLoop x width index rest lower upper

/-- The outer loop `for index, x in enumerate(x_data)` of `plot_band`. -/
def outerLoop (width : ℚ) (pairs : List (ℚ × ℚ)) :
    List ℚ → ℕ → List XReal → List XReal → Option (List XReal × List XReal)
  | [], _, lower, upper => some (lower, upper)
  | x :: xs, index, lower, upper =>
    match innerLoop x width index pairs lower upper with
    | some s => outerLoop width pairs xs (index + 1) s.1 s.2
    | none => none

/-- The envelope computation of `plot_band`: arrays `lower_y` / `upper_y` of
length `len(y_data)` initialised to the `+inf` / `-inf` sentinels, then the
double scan. Returns `none` when the Python code raises `IndexError`. -/
def plot_band (x_data y_data : List ℚ) (width : ℚ) :
    Option (List XReal × List XReal) :=
  outerLoop width (x_data.zip y_data) x_data 0
    (List.replicate y_data.length XReal.posInf)
    (List.replicate y_data.length XReal.negInf)

/-- The arguments `(x_data, lower_y, upper_y)` that `plot_band` forwards,
unmodified, to `ax.fill_between`. -/
def plot_band_fill_args (x_data y_data : List ℚ) (width : ℚ) :
    Option (List ℚ × List XReal × List XReal) :=
  match plot_band x_data y_data width with
  | some s => some (x_data, s.1, s.2)
  | none => none

/-- The effect of the inner loop on the single cell it touches, as a fold:
state `(lower_y[index], upper_y[index])` stepped by every pair of the zipped
series that passes the width test. -/
def bandGo (x width : ℚ) (pairs : List (ℚ × ℚ)) (s : XReal × XReal) :
    XReal × XReal :=
  pairs.foldl (fun s p => if |x - p.1| < width then bandStep p.2 s else s) s

/-- The y-values of the samples whose x lies strictly within `width`
of `x` — the neighborhood window the spec speaks about. -/
def windowYs (x width : ℚ) (pairs : List (ℚ × ℚ)) : List ℚ :=
  (pairs.filter (fun p => decide (|x - p.1| < width))).map Prod.snd

/-- Running minimum, as the lower-bound branch of the loop body computes it. -/
def runMin (lo : XReal) (ys : List ℚ) : XReal :=
  ys.foldl (fun lo v => if XReal.blt (.fin v) lo then .fin v else lo) lo

namespace XReal

/-- `≤` is reflexive on `XReal`. -/
theorem ble_refl (a : XReal) : ble a a = true := by
  cases a <;> simp [ble, blt]

/-- `≤` is transitive on `XReal`. -/
theorem ble_trans {a b c : XReal} (h1 : ble a b = true) (h2 : ble b c = true) :
    ble a c = true := by
  cases a <;> cases b <;> cases c <;>
    simp_all [ble, blt] <;> linarith

/-- `<` implies `≤` on `XReal`. -/
theorem ble_of_blt {a b : XReal} (h : blt a b = true) : ble a b = true := by
  cases a <;> cases b <;> simp_all [ble, blt] <;> linarith

/-- A failed `<` test is a reversed `≤` on `XReal`. -/
theorem ble_of_not_blt {a b : XReal} (h : blt a b = false) : ble b a = true := by
  simp [ble, h]

/-- `<`-then-`≤` transitivity on `XReal`. -/
theorem blt_ble_trans {a b c : XReal} (h1 : blt a b = true)
    (h2 : ble b c = true) : blt a c = true := by
  cases a <;> cases b <;> cases c <;>
    simp_all [ble, blt] <;> linarith

end XReal

/-- The lower half of a loop-body step is a running minimum, independent of
the upper half of the state. -/
theorem bandStep_fst (yp : ℚ) (s : XReal × XReal) :
    (bandStep yp s).1 = if XReal.blt (.fin yp) s.1 then .fin yp else s.1 := by
  unfold bandStep
  split
  · rfl
  · split <;> rfl

/-- A loop-body step never increases the lower bound. -/
theorem bandStep_fst_ble (yp : ℚ) (s : XReal × XReal) :
    XReal.ble (bandStep yp s).1 s.1 = true := by
  rw [bandStep_fst]
  split
  · exact XReal.ble_of_blt (by assumption)
  · exact XReal.ble_refl _

/-- A loop-body step never decreases the upper bound. -/
theorem bandStep_snd_ble (yp : ℚ) (s : XReal × XReal) :
    XReal.ble s.2 (bandStep yp s).2 = true := by
  unfold bandStep
  split
  · exact XReal.ble_refl _
  · split
    · exact XReal.ble_of_blt (by assumption)
    · exact XReal.ble_refl _

/-- Setting a list cell to the value it already holds is the identity. -/
theorem set_self {α : Type} : ∀ (l : List α) (i : ℕ) (a : α),
    l[i]? = some a → l.set i a = l
  | [], i, a, h => by simp at h
  | b :: l, 0, a, h => by
    simp_all [List.set]
  | b :: l, i + 1, a, h => by
    simp only [List.getElem?_cons_succ] at h
    simp [List.set, set_self l i a h]

/-- Unfolding `bandGo` over a cons cell. -/
theorem bandGo_cons (x width : ℚ) (p : ℚ × ℚ) (pairs : List (ℚ × ℚ))
    (s : XReal × XReal) :
    bandGo x width (p :: pairs) s =
      bandGo x width pairs (if |x - p.1| < width then bandStep p.2 s else s) :=
  rfl

/-- The inner loop over the zipped pairs touches only cell `index`: when that
cell is in bounds it returns normally, with the cell driven through the fold
`bandGo` and everything else intact. -/
theorem innerLoop_eq (x w : ℚ) (index : ℕ) :
    ∀ (pairs : List (ℚ × ℚ)) (lower upper : List XReal) (lo hi : XReal),
      lower[index]? = some lo → upper[index]? = some hi →
      innerLoop x w index pairs lower upper =
        some (lower.set index (bandGo x w pairs (lo, hi)).1,
              upper.set index (bandGo x w pairs (lo, hi)).2)
  | [], lower, upper, lo, hi, hlo, hhi => by
    simp [innerLoop, bandGo, set_self lower index lo hlo,
      set_self upper index hi hhi]
  | p :: pairs, lower, upper, lo, hi, hlo, hhi => by
    have hlen1 : index < lower.length := (List.getElem?_eq_some.mp hlo).1
    have hlen2 : index < upper.length := (List.getElem?_eq_some.mp hhi).1
    rw [innerLoop, bandGo_cons]
    by_cases htr : |x - p.1| < w
    · rw [if_pos htr, hlo, hhi, if_pos htr]
      dsimp only
      by_cases h1 : XReal.blt (.fin p.2) lo
      · rw [if_pos h1]
        have hset : (lower.set index (.fin p.2))[index]? = some (.fin p.2) :=
          List.getElem?_set_self hlen1
        rw [innerLoop_eq x w index pairs _ upper (.fin p.2) hi hset hhi,
          List.set_set]
        have hstep : bandStep p.2 (lo, hi) = (.fin p.2, hi) := by
          simp [bandStep, h1]
        rw [hstep]
      · rw [if_neg h1]
        by_cases h2 : XReal.blt hi (.fin p.2)
        · rw [if_pos h2]
          have hset : (upper.set index (.fin p.2))[index]? = some (.fin p.2) :=
            List.getElem?_set_self hlen2
          rw [innerLoop_eq x w index pairs lower _ lo (.fin p.2) hlo hset,
            List.set_set]
          have hstep : bandStep p.2 (lo, hi) = (lo, .fin p.2) := by
            simp [bandStep, h1, h2]
          rw [hstep]
        · rw [if_neg h2]
          have hstep : bandStep p.2 (lo, hi) = (lo, hi) := by
            simp [bandStep, h1, h2]
          rw [innerLoop_eq x w index pairs lower upper lo hi hlo hhi, hstep]
    · rw [if_neg htr, if_neg htr]
      exact innerLoop_eq x w index pairs lower upper lo hi hlo hhi

/-- The outer loop, started at `index` with every cell of positions
`index, …, index + xs.length - 1` still to be written, returns normally and
drives exactly those cells through `bandGo`, leaving the rest intact. -/
theorem outerLoop_eq (w : ℚ) (pairs : List (ℚ × ℚ)) :
    ∀ (xs : List ℚ) (index : ℕ) (lower upper : List XReal),
      index + xs.length ≤ lower.length → lower.length = upper.length →
      ∃ L U, outerLoop w pairs xs index lower upper = some (L, U) ∧
        L.length = lower.length ∧ U.length = upper.length ∧
        (∀ j, j < index ∨ index + xs.length ≤ j →
          L[j]? = lower[j]? ∧ U[j]? = upper[j]?) ∧
        (∀ k, ∀ hk : k < xs.length, ∀ lo hi,
          lower[index + k]? = some lo → upper[index + k]? = some hi →
          L[index + k]? = some (bandGo (xs.get ⟨k, hk⟩) w pairs (lo, hi)).1 ∧
          U[index + k]? = some (bandGo (xs.get ⟨k, hk⟩) w pairs (lo, hi)).2) := by
  intro xs
  induction xs with
  | nil =>
    intro index lower upper hb hl
    exact ⟨lower, upper, rfl, rfl, rfl, fun j _ => ⟨rfl, rfl⟩,
      fun k hk => absurd hk (by simp)⟩
  | cons x xs ih =>
    intro index lower upper hb hl
    have hxslen : (x :: xs).length = xs.length + 1 := by simp
    have hidx1 : index < lower.length := by rw [hxslen] at hb; omega
    have hidx2 : index < upper.length := hl ▸ hidx1
    obtain ⟨lo, hlo⟩ : ∃ lo, lower[index]? = some lo :=
      ⟨_, List.getElem?_eq_getElem hidx1⟩
    obtain ⟨hi, hhi⟩ : ∃ hi, upper[index]? = some hi :=
      ⟨_, List.getElem?_eq_getElem hidx2⟩
    have hb' : index + 1 + xs.length ≤ (lower.set index
        (bandGo x w pairs (lo, hi)).1).length := by
      rw [List.length_set]
      rw [hxslen] at hb
      omega
    have hl' : (lower.set index (bandGo x w pairs (lo, hi)).1).length =
        (upper.set index (bandGo x w pairs (lo, hi)).2).length := by
      simp [hl]
    obtain ⟨L, U, hout, hLlen, hUlen, hunch, hcomp⟩ :=
      ih (index + 1) (lower.set index (bandGo x w pairs (lo, hi)).1)
        (upper.set index (bandGo x w pairs (lo, hi)).2) hb' hl'
    refine ⟨L, U, ?_, ?_, ?_, ?_, ?_⟩
    · rw [outerLoop, innerLoop_eq x w index pairs lower upper lo hi hlo hhi]
      exact hout
    · rw [hLlen, List.length_set]
    · rw [hUlen, List.length_set]
    · intro j hj
      have hj' : j ≠ index := by rw [hxslen] at hj; omega
      have := hunch j (by rw [hxslen] at hj; omega)
      rwa [List.getElem?_set_ne (fun h => hj' h.symm),
        List.getElem?_set_ne (fun h => hj' h.symm)] at this
    · intro k hk lo' hi' hlo' hhi'
      match k with
      | 0 =>
        have hlo'' : lo' = lo := by
          rw [Nat.add_zero] at hlo'
          rw [hlo] at hlo'
          exact (Option.some.inj hlo').symm
        have hhi'' : hi' = hi := by
          rw [Nat.add_zero] at hhi'
          rw [hhi] at hhi'
          exact (Option.some.inj hhi').symm
        have := hunch index (Or.inl (by omega))
        rw [List.getElem?_set_self hidx1, List.getElem?_set_self hidx2] at this
        rw [Nat.add_zero, hlo'', hhi'']
        exact this
      | k' + 1 =>
        have hk' : k' < xs.length := by rw [hxslen] at hk; omega
        have heq : index + (k' + 1) = index + 1 + k' := by omega
        rw [heq] at hlo' hhi' ⊢
        have hne : index ≠ index + 1 + k' := by omega
        have := hcomp k' hk' lo' hi'
          (by rw [List.getElem?_set_ne hne]; exact hlo')
          (by rw [List.getElem?_set_ne hne]; exact hhi')
        simpa using this

/-- The complete envelope computation, when `x_data` is no longer than
`y_data` (so no IndexError can occur): it returns normally, the outputs have
length `len(y_data)`, cell `i < len(x_data)` holds the fold `bandGo` of the
zipped series started from the sentinels, and every cell beyond `len(x_data)`
keeps its sentinel. -/
theorem plot_band_eq (x y : List ℚ) (w : ℚ) (h : x.length ≤ y.length) :
    ∃ L U, plot_band x y w = some (L, U) ∧
      L.length = y.length ∧ U.length = y.length ∧
      (∀ i, ∀ hi : i < x.length,
        L[i]? = some (bandGo (x.get ⟨i, hi⟩) w (x.zip y)
          (.posInf, .negInf)).1 ∧
        U[i]? = some (bandGo (x.get ⟨i, hi⟩) w (x.zip y)
          (.posInf, .negInf)).2) ∧
      (∀ i, x.length ≤ i → i < y.length →
        L[i]? = some .posInf ∧ U[i]? = some .negInf) := by
  obtain ⟨L, U, hout, hLlen, hUlen, hunch, hcomp⟩ :=
    outerLoop_eq w (x.zip y) x 0
      (List.replicate y.length XReal.posInf)
      (List.replicate y.length XReal.negInf)
      (by simp; omega) (by simp)
  refine ⟨L, U, hout, by simpa using hLlen, by simpa using hUlen, ?_, ?_⟩
  · intro i hi
    have := hcomp i hi XReal.posInf XReal.negInf
      (by simpa using List.getElem?_replicate_of_lt (show i < y.length by omega))
      (by simpa using List.getElem?_replicate_of_lt (show i < y.length by omega))
    simpa using this
  · intro i hge hlt
    have := hunch i (Or.inr (by omega))
    rw [List.getElem?_replicate_of_lt hlt, List.getElem?_replicate_of_lt hlt]
      at this
    exact this

/-- Unfolding `windowYs` over a cons cell. -/
theorem windowYs_cons (x w : ℚ) (p : ℚ × ℚ) (pairs : List (ℚ × ℚ)) :
    windowYs x w (p :: pairs) =
      if |x - p.1| < w then p.2 :: windowYs x w pairs
      else windowYs x w pairs := by
  by_cases h : |x - p.1| < w
  · simp [windowYs, List.filter_cons, h]
  · simp [windowYs, List.filter_cons, h]

/-- Unfolding `runMin` over a cons cell. -/
theorem runMin_cons (lo : XReal) (v : ℚ) (ys : List ℚ) :
    runMin lo (v :: ys) =
      runMin (if XReal.blt (.fin v) lo then .fin v else lo) ys :=
  rfl

/-- Starting the running minimum at the `+inf` sentinel: the first value
always takes over. -/
theorem runMin_posInf_cons (v : ℚ) (ys : List ℚ) :
    runMin .posInf (v :: ys) = runMin (.fin v) ys :=
  rfl

/-- The lower bound computed by the fold is exactly the running minimum of
the window's y-values. -/
theorem bandGo_fst_runMin (x w : ℚ) :
    ∀ (pairs : List (ℚ × ℚ)) (s : XReal × XReal),
      (bandGo x w pairs s).1 = runMin s.1 (windowYs x w pairs)
  | [], s => rfl
  | p :: pairs, s => by
    rw [bandGo_cons, windowYs_cons]
    by_cases h : |x - p.1| < w
    · rw [if_pos h, if_pos h, bandGo_fst_runMin x w pairs (bandStep p.2 s),
        runMin_cons, bandStep_fst]
    · rw [if_neg h, if_neg h, bandGo_fst_runMin x w pairs s]

/-- A running minimum started at a finite value lands on a finite value that
is one of the inputs (or the start), and bounds them all from below. -/
theorem runMin_fin : ∀ (ys : List ℚ) (a : ℚ),
    ∃ m, runMin (.fin a) ys = .fin m ∧
      (m = a ∨ m ∈ ys) ∧ m ≤ a ∧ ∀ v ∈ ys, m ≤ v
  | [], a => ⟨a, rfl, Or.inl rfl, le_refl a, by simp⟩
  | v :: ys, a => by
    rw [runMin_cons]
    by_cases h : XReal.blt (.fin v) (.fin a) = true
    · rw [if_pos h]
      have hva : v < a := by simpa [XReal.blt] using h
      obtain ⟨m, hm, hmem, hle, hall⟩ := runMin_fin ys v
      refine ⟨m, hm, ?_, by linarith, ?_⟩
      · rcases hmem with h' | h'
        · exact Or.inr (by rw [h']; exact List.mem_cons_self v ys)
        · exact Or.inr (List.mem_cons_of_mem v h')
      · intro u hu
        rcases List.mem_cons.mp hu with h' | h'
        · rw [h']; exact hle
        · exact hall u h'
    · rw [if_neg h]
      have hav : a ≤ v := by
        simp only [XReal.blt, decide_eq_true_eq] at h
        exact not_lt.mp h
      obtain ⟨m, hm, hmem, hle, hall⟩ := runMin_fin ys a
      refine ⟨m, hm, ?_, hle, ?_⟩
      · rcases hmem with h' | h'
        · exact Or.inl h'
        · exact Or.inr (List.mem_cons_of_mem v h')
      · intro u hu
        rcases List.mem_cons.mp hu with h' | h'
        · rw [h']; linarith
        · exact hall u h'

/-- Membership in the window of a zipped series, in terms of indices of the
two underlying series. -/
theorem mem_windowYs {v x w : ℚ} {xd yd : List ℚ} :
    v ∈ windowYs x w (xd.zip yd) ↔
      ∃ (j : ℕ) (xj : ℚ), xd[j]? = some xj ∧ |x - xj| < w ∧
        yd[j]? = some v := by
  simp only [windowYs, List.mem_map, List.mem_filter, decide_eq_true_eq]
  constructor
  · rintro ⟨p, ⟨hmem, htr⟩, hsnd⟩
    obtain ⟨j, hj⟩ := List.mem_iff_getElem?.mp hmem
    obtain ⟨h1, h2⟩ := List.getElem?_zip_eq_some.mp hj
    exact ⟨j, p.1, h1, htr, by rw [h2, hsnd]⟩
  · rintro ⟨j, xj, h1, htr, h2⟩
    refine ⟨(xj, v), ⟨?_, htr⟩, rfl⟩
    exact List.mem_iff_getElem?.mpr ⟨j, List.getElem?_zip_eq_some.mpr ⟨h1, h2⟩⟩

/-- The fold leaves the state alone when no sample passes the width test. -/
theorem bandGo_id_of_no_trigger (x w : ℚ) :
    ∀ (pairs : List (ℚ × ℚ)) (s : XReal × XReal),
      (∀ p ∈ pairs, ¬ |x - p.1| < w) → bandGo x w pairs s = s
  | [], _, _ => rfl
  | p :: pairs, s, h => by
    rw [bandGo_cons, if_neg (h p (List.mem_cons_self p pairs))]
    exact bandGo_id_of_no_trigger x w pairs s
      (fun q hq => h q (List.mem_cons_of_mem p hq))

/-- The upper half of a loop-body step, as the `elif` computes it: untouched
whenever the lower bound was just updated. -/
theorem bandStep_snd (yp : ℚ) (s : XReal × XReal) :
    (bandStep yp s).2 = if XReal.blt (.fin yp) s.1 then s.2
      else if XReal.blt s.2 (.fin yp) then .fin yp else s.2 := by
  by_cases h1 : XReal.blt (.fin yp) s.1
  · simp [bandStep, h1]
  · by_cases h2 : XReal.blt s.2 (.fin yp)
    · simp [bandStep, h1, h2]
    · simp [bandStep, h1, h2]

/-- A loop-body step preserves the widening invariant between a narrow state
`s` and a wide state `t`: `t.lower ≤ s.lower` and `s.upper ≤ t.upper`. -/
theorem bandStep_mono (yp : ℚ) (s t : XReal × XReal)
    (h1 : XReal.ble t.1 s.1 = true) (h2 : XReal.ble s.2 t.2 = true) :
    XReal.ble (bandStep yp t).1 (bandStep yp s).1 = true ∧
      XReal.ble (bandStep yp s).2 (bandStep yp t).2 = true := by
  constructor
  · rw [bandStep_fst, bandStep_fst]
    by_cases ha : XReal.blt (.fin yp) t.1 = true
    · rw [if_pos ha, if_pos (XReal.blt_ble_trans ha h1)]
      exact XReal.ble_refl _
    · rw [if_neg ha]
      have ha' : XReal.blt (.fin yp) t.1 = false := by simpa using ha
      by_cases hb : XReal.blt (.fin yp) s.1 = true
      · rw [if_pos hb]
        exact XReal.ble_of_not_blt ha'
      · rw [if_neg hb]
        exact h1
  · rw [bandStep_snd, bandStep_snd]
    have hrhs : XReal.ble t.2
        (if XReal.blt t.2 (.fin yp) then .fin yp else t.2) = true := by
      by_cases hf : XReal.blt t.2 (.fin yp) = true
      · rw [if_pos hf]; exact XReal.ble_of_blt hf
      · rw [if_neg hf]; exact XReal.ble_refl _
    by_cases hc : XReal.blt (.fin yp) t.1 = true
    · rw [if_pos hc, if_pos (XReal.blt_ble_trans hc h1)]
      exact h2
    · rw [if_neg hc]
      by_cases hd : XReal.blt (.fin yp) s.1 = true
      · rw [if_pos hd]
        exact XReal.ble_trans h2 hrhs
      · rw [if_neg hd]
        by_cases he : XReal.blt s.2 (.fin yp) = true
        · rw [if_pos he]
          by_cases hf : XReal.blt t.2 (.fin yp) = true
          · rw [if_pos hf]; exact XReal.ble_refl _
          · rw [if_neg hf]
            exact XReal.ble_of_not_blt (by simpa using hf)
        · rw [if_neg he]
          exact XReal.ble_trans h2 hrhs

/-- The fold preserves the widening invariant when the wide run uses a larger
width: every sample the narrow run sees, the wide run sees too. -/
theorem bandGo_mono (x w1 w2 : ℚ) (hw : w1 ≤ w2) :
    ∀ (pairs : List (ℚ × ℚ)) (s t : XReal × XReal),
      XReal.ble t.1 s.1 = true → XReal.ble s.2 t.2 = true →
      XReal.ble (bandGo x w2 pairs t).1 (bandGo x w1 pairs s).1 = true ∧
        XReal.ble (bandGo x w1 pairs s).2 (bandGo x w2 pairs t).2 = true
  | [], s, t, h1, h2 => ⟨h1, h2⟩
  | p :: pairs, s, t, h1, h2 => by
    rw [bandGo_cons, bandGo_cons]
    by_cases ha : |x - p.1| < w1
    · rw [if_pos ha, if_pos (lt_of_lt_of_le ha hw)]
      obtain ⟨m1, m2⟩ := bandStep_mono p.2 s t h1 h2
      exact bandGo_mono x w1 w2 hw pairs _ _ m1 m2
    · rw [if_neg ha]
      by_cases hb : |x - p.1| < w2
      · rw [if_pos hb]
        exact bandGo_mono x w1 w2 hw pairs s (bandStep p.2 t)
          (XReal.ble_trans (bandStep_fst_ble p.2 t) h1)
          (XReal.ble_trans h2 (bandStep_snd_ble p.2 t))
      · rw [if_neg hb]
        exact bandGo_mono x w1 w2 hw pairs s t h1 h2

/-- With a non-positive width the strict test `|x - x_prime| < width` never
passes, so the inner loop returns its input unchanged. -/
theorem innerLoop_nonpos (x w : ℚ) (index : ℕ) (hw : w ≤ 0) :
    ∀ (pairs : List (ℚ × ℚ)) (lower upper : List XReal),
      innerLoop x w index pairs lower upper = some (lower, upper)
  | [], _, _ => rfl
  | p :: pairs, lower, upper => by
    rw [innerLoop,
      if_neg (fun hcon => absurd hcon (not_lt.mpr
        (le_trans hw (abs_nonneg (x - p.1)))))]
    exact innerLoop_nonpos x w index hw pairs lower upper

/-- With a non-positive width the outer loop returns its input unchanged. -/
theorem outerLoop_nonpos (w : ℚ) (pairs : List (ℚ × ℚ)) (hw : w ≤ 0) :
    ∀ (xs : List ℚ) (index : ℕ) (lower upper : List XReal),
      outerLoop w pairs xs index lower upper = some (lower, upper)
  | [], _, _, _ => rfl
  | x :: xs, index, lower, upper => by
    rw [outerLoop, innerLoop_nonpos x w index hw pairs lower upper]
    exact outerLoop_nonpos w pairs hw xs (index + 1) lower upper

/-- With a non-positive width `plot_band` completes and returns the untouched
sentinel arrays, whatever the input lengths. -/
theorem plot_band_nonpos (x y : List ℚ) (w : ℚ) (hw : w ≤ 0) :
    plot_band x y w = some (List.replicate y.length XReal.posInf,
      List.replicate y.length XReal.negInf) :=
  outerLoop_nonpos w (x.zip y) hw x 0 _ _

/-- C1: evaluation of the `plot_band` envelope at the spec's concrete case
`x = [0, 1, 2, 3]`, `y = [5, 1, 9, 3]`, `width = 3/2`.  The claim predicts
`lower = [1, 1, 1, 3]` and `upper = [5, 9, 9, 9]`; the code produces the
claimed `lower`, but `upper = [-inf, 9, 9, -inf]`: the `elif` skips the
upper-bound update on every pass that updates the lower bound, so indices 0
and 3 (whose window maximum is scanned while the running minimum is still
falling) keep the `-inf` sentinel. -/
theorem C1_concrete_envelope :
    plot_band [0, 1, 2, 3] [5, 1, 9, 3] (3 / 2) =
      some ([.fin 1, .fin 1, .fin 1, .fin 3],
            [.negInf, .fin 9, .fin 9, .negInf]) := by
  with_unfolding_all decide

/-- C2: at `x = [0]`, `y = [5]`, `width = 1` index 0 has a neighbor
(`|x 0 - x 0| = 0 < 1`), yet the code yields `lower 0 = 5` and
`upper 0 = -inf`, so `lower 0 ≤ upper 0` fails: the `elif` never runs on
the single pass (which updates the lower bound), leaving the `-inf`
sentinel in `upper`. -/
theorem C2_lower_above_upper :
    plot_band [0] [5] 1 = some ([.fin 5], [.negInf]) ∧
      XReal.ble (.fin 5) .negInf = false ∧ |(0 : ℚ) - 0| < 1 := by
  with_unfolding_all decide

/-- C4 counterexample: with `x` of length 3 and `y` of length 4 the
computation completes and returns output (no ShapeMismatch failure), and
with `width = -1` it completes returning the sentinel arrays (no
InvalidParameter failure): `plot_band` validates nothing. -/
theorem C4_counterexample_no_validation :
    plot_band [0, 1, 2] [0, 1, 2, 3] 1 =
      some ([.fin 0, .fin 1, .fin 2, .posInf],
            [.negInf, .negInf, .negInf, .negInf]) ∧
      plot_band [0] [0] (-1) = some ([.posInf], [.negInf]) := by
  with_unfolding_all decide

/-- C5: at the single-sample input `x = [0]`, `y = [7]` with `width = 1`
the code yields `lower 0 = 7` but `upper 0 = -inf`, not `upper 0 = 7` as
the claim states (the `elif` skips the upper update on the pass that sets
the lower bound); the `width = 0` half of the claim does hold: both bounds
keep their sentinels. -/
theorem C5_single_sample :
    plot_band [0] [7] 1 = some ([.fin 7], [.negInf]) ∧
      plot_band [0] [7] 0 = some ([.posInf], [.negInf]) := by
  with_unfolding_all decide

/-- C6: swapping the two samples of `x = [0, 0]`, `y = [9, 1]` (`width = 1`)
changes the computed upper bounds from `[-inf, -inf]` to `[9, 9]`, which is
not the swap of the original output: the scan is order-dependent, because
the `elif` makes the upper update conditional on the history of lower
updates. -/
theorem C6_order_dependent :
    plot_band [0, 0] [9, 1] 1 =
        some ([.fin 1, .fin 1], [.negInf, .negInf]) ∧
      plot_band [0, 0] [1, 9] 1 =
        some ([.fin 1, .fin 1], [.fin 9, .fin 9]) := by
  with_unfolding_all decide

/-- C9 counterexample: at `x = [0]`, `y = [5]`, `width = 0` index 0 has no
neighbor (`|0 - 0| < 0` fails), yet the arrays forwarded to `fill_between`
are exactly the raw sentinel arrays `[+inf]`, `[-inf]` — nothing is excluded
or interpolated. -/
theorem C9_counterexample_sentinels_forwarded :
    plot_band_fill_args [0] [5] 0 = some ([0], [.posInf], [.negInf]) ∧
      ¬ |(0 : ℚ) - 0| < 0 := by
  with_unfolding_all decide

/-- C10 counterexample: with `x` of length 4 and `y` of length 3 and
`width = 1`, outer index 3 finds a sample within the width and reads
`lower_y[3]` in an array of length 3: the computation aborts with an
IndexError (`none`) instead of completing. -/
theorem C10_counterexample_index_error :
    plot_band [0, 0, 0, 0] [0, 0, 0] 1 = none := by
  with_unfolding_all decide

/-- C3: for equal-length series and any index `i` whose window is non-empty,
the computed `lower_y[i]` is finite, is achieved by some sample of the window
(all samples `j` — including `j = i` — with `|x[i] - x[j]| < width`, strict),
and bounds every window sample's y from below: it is exactly the window
minimum. -/
theorem C3_lower_is_window_min (x y : List ℚ) (w : ℚ)
    (hlen : x.length = y.length) (_hN : 1 ≤ x.length) (_hw : 0 ≤ w)
    (i : ℕ) (xi : ℚ) (hxi : x[i]? = some xi)
    (hwin : ∃ (j : ℕ) (xj : ℚ), x[j]? = some xj ∧ |xi - xj| < w) :
    ∃ L U m, plot_band x y w = some (L, U) ∧ L[i]? = some (.fin m) ∧
      (∃ (j : ℕ) (xj : ℚ), x[j]? = some xj ∧ |xi - xj| < w ∧
        y[j]? = some m) ∧
      (∀ (j : ℕ) (xj v : ℚ), x[j]? = some xj → |xi - xj| < w →
        y[j]? = some v → m ≤ v) := by
  obtain ⟨L, U, hout, hLlen, hUlen, hcomp, hrest⟩ :=
    plot_band_eq x y w (le_of_eq hlen)
  have hi : i < x.length := (List.getElem?_eq_some.mp hxi).1
  have hget : x.get ⟨i, hi⟩ = xi := by
    have h2 := List.getElem?_eq_getElem hi
    rw [hxi] at h2
    simp only [List.get_eq_getElem]
    exact (Option.some.inj h2).symm
  have hL := (hcomp i hi).1
  rw [hget, bandGo_fst_runMin] at hL
  obtain ⟨j0, xj0, hxj0, htr0⟩ := hwin
  have hj0 : j0 < x.length := (List.getElem?_eq_some.mp hxj0).1
  have hj0y : j0 < y.length := hlen ▸ hj0
  obtain ⟨v0, hv0⟩ : ∃ v0, y[j0]? = some v0 :=
    ⟨_, List.getElem?_eq_getElem hj0y⟩
  have hv0mem : v0 ∈ windowYs xi w (x.zip y) :=
    mem_windowYs.mpr ⟨j0, xj0, hxj0, htr0, hv0⟩
  cases hwys : windowYs xi w (x.zip y) with
  | nil =>
    rw [hwys] at hv0mem
    exact absurd hv0mem (List.not_mem_nil v0)
  | cons v ys =>
    rw [hwys, runMin_posInf_cons] at hL
    obtain ⟨m, hm, hmem, hle, hall⟩ := runMin_fin ys v
    rw [hm] at hL
    have hmall : ∀ u ∈ v :: ys, m ≤ u := by
      intro u hu
      rcases List.mem_cons.mp hu with h | h
      · rw [h]; exact hle
      · exact hall u h
    have hmmem : m ∈ windowYs xi w (x.zip y) := by
      rw [hwys]
      rcases hmem with h | h
      · rw [h]; exact List.mem_cons_self v ys
      · exact List.mem_cons_of_mem v h
    obtain ⟨j1, xj1, hxj1, htr1, hy1⟩ := mem_windowYs.mp hmmem
    refine ⟨L, U, m, hout, hL, ⟨j1, xj1, hxj1, htr1, hy1⟩, ?_⟩
    intro j xj vv hxj htr hyv
    have hvv : vv ∈ windowYs xi w (x.zip y) :=
      mem_windowYs.mpr ⟨j, xj, hxj, htr, hyv⟩
    rw [hwys] at hvv
    exact hmall vv hvv

/-- C3 witness: the theorem applied at `x = [0, 1]`, `y = [2, 3]`,
`width = 1`, index 0, whose window is `{0}` with minimum `y[0] = 2`. -/
theorem C3_witness :
    ∃ L U m, plot_band [0, 1] [2, 3] 1 = some (L, U) ∧
      L[0]? = some (.fin m) ∧
      (∃ (j : ℕ) (xj : ℚ), ([0, 1] : List ℚ)[j]? = some xj ∧
        |(0 : ℚ) - xj| < 1 ∧ ([2, 3] : List ℚ)[j]? = some m) ∧
      (∀ (j : ℕ) (xj v : ℚ), ([0, 1] : List ℚ)[j]? = some xj →
        |(0 : ℚ) - xj| < 1 → ([2, 3] : List ℚ)[j]? = some v → m ≤ v) :=
  C3_lower_is_window_min [0, 1] [2, 3] 1 rfl (by norm_num) (by norm_num)
    0 0 rfl ⟨0, 0, rfl, by norm_num⟩

/-- C7: widening the tolerance only widens the band the code computes, at
every index: with `0 ≤ width1 < width2` and equal-length series, the lower
bound at `width2` is `≤` the one at `width1` and the upper bound at `width2`
is `≥` the one at `width1` (in the sentinel-extended order). -/
theorem C7_width_monotone (x y : List ℚ) (w1 w2 : ℚ)
    (hlen : x.length = y.length) (_h0 : 0 ≤ w1) (h12 : w1 < w2)
    (i : ℕ) (hi : i < x.length) :
    ∃ L1 U1 L2 U2 lo1 up1 lo2 up2,
      plot_band x y w1 = some (L1, U1) ∧ plot_band x y w2 = some (L2, U2) ∧
      L1[i]? = some lo1 ∧ U1[i]? = some up1 ∧
      L2[i]? = some lo2 ∧ U2[i]? = some up2 ∧
      XReal.ble lo2 lo1 = true ∧ XReal.ble up1 up2 = true := by
  obtain ⟨L1, U1, hout1, _, _, hcomp1, _⟩ := plot_band_eq x y w1 (le_of_eq hlen)
  obtain ⟨L2, U2, hout2, _, _, hcomp2, _⟩ := plot_band_eq x y w2 (le_of_eq hlen)
  obtain ⟨hL1, hU1⟩ := hcomp1 i hi
  obtain ⟨hL2, hU2⟩ := hcomp2 i hi
  obtain ⟨m1, m2⟩ := bandGo_mono (x.get ⟨i, hi⟩) w1 w2 (le_of_lt h12)
    (x.zip y) (.posInf, .negInf) (.posInf, .negInf)
    (XReal.ble_refl _) (XReal.ble_refl _)
  exact ⟨L1, U1, L2, U2, _, _, _, _, hout1, hout2, hL1, hU1, hL2, hU2, m1, m2⟩

/-- C7 witness: the theorem applied at `x = [0, 1]`, `y = [5, 6]`,
`width1 = 1`, `width2 = 2`, index 0. -/
theorem C7_witness :
    ∃ L1 U1 L2 U2 lo1 up1 lo2 up2,
      plot_band [0, 1] [5, 6] 1 = some (L1, U1) ∧
      plot_band [0, 1] [5, 6] 2 = some (L2, U2) ∧
      L1[0]? = some lo1 ∧ U1[0]? = some up1 ∧
      L2[0]? = some lo2 ∧ U2[0]? = some up2 ∧
      XReal.ble lo2 lo1 = true ∧ XReal.ble up1 up2 = true :=
  C7_width_monotone [0, 1] [5, 6] 1 2 rfl (by norm_num) (by norm_num)
    0 (by norm_num)

/-- C8: with `width = 0` the strict test `|a - b| < 0` never passes (the
absolute value is non-negative), so no index has any neighbor — not even
itself — and `plot_band` completes without failure, returning the untouched
sentinel arrays. -/
theorem C8_zero_width (x y : List ℚ) :
    plot_band x y 0 = some (List.replicate y.length XReal.posInf,
        List.replicate y.length XReal.negInf) ∧
      ∀ a b : ℚ, ¬ |a - b| < 0 :=
  ⟨plot_band_nonpos x y 0 le_rfl,
    fun _ _ h => absurd h (not_lt.mpr (abs_nonneg _))⟩

/-- C4 amended: a negative width is not rejected with an InvalidParameter
failure; the computation completes (for any input lengths) and returns the
untouched sentinel arrays, since no sample can pass the strict width test. -/
theorem C4_amended_negative_width (x y : List ℚ) (w : ℚ) (hw : w < 0) :
    plot_band x y w = some (List.replicate y.length XReal.posInf,
      List.replicate y.length XReal.negInf) :=
  plot_band_nonpos x y w (le_of_lt hw)

/-- C4 amended witness: the amended theorem applied at `x = [0, 1]`,
`y = [2, 3]`, `width = -1`. -/
theorem C4_amended_witness :
    (-1 : ℚ) < 0 ∧ plot_band [0, 1] [2, 3] (-1) =
      some (List.replicate 2 XReal.posInf, List.replicate 2 XReal.negInf) :=
  ⟨by norm_num, C4_amended_negative_width [0, 1] [2, 3] (-1) (by norm_num)⟩

/-- C9 amended: `plot_band` forwards the engine's arrays to `fill_between`
unmodified; at every index whose window is empty the forwarded lower/upper
sequences hold the raw `+inf` / `-inf` sentinels — nothing is excluded or
interpolated. -/
theorem C9_amended_sentinels_forwarded (x y : List ℚ) (w : ℚ)
    (hlen : x.length = y.length) (i : ℕ) (xi : ℚ) (hxi : x[i]? = some xi)
    (hempty : ∀ (j : ℕ) (xj : ℚ), x[j]? = some xj → ¬ |xi - xj| < w) :
    ∃ L U, plot_band_fill_args x y w = some (x, L, U) ∧
      L[i]? = some XReal.posInf ∧ U[i]? = some XReal.negInf := by
  obtain ⟨L, U, hout, _, _, hcomp, _⟩ := plot_band_eq x y w (le_of_eq hlen)
  have hi : i < x.length := (List.getElem?_eq_some.mp hxi).1
  have hget : x.get ⟨i, hi⟩ = xi := by
    have h2 := List.getElem?_eq_getElem hi
    rw [hxi] at h2
    simp only [List.get_eq_getElem]
    exact (Option.some.inj h2).symm
  have hnone : ∀ p ∈ x.zip y, ¬ |xi - p.1| < w := by
    intro p hp
    obtain ⟨j, hj⟩ := List.mem_iff_getElem?.mp hp
    exact hempty j p.1 (List.getElem?_zip_eq_some.mp hj).1
  obtain ⟨hL, hU⟩ := hcomp i hi
  rw [hget, bandGo_id_of_no_trigger xi w (x.zip y) _ hnone] at hL hU
  exact ⟨L, U, by rw [plot_band_fill_args, hout], hL, hU⟩

/-- C9 amended witness: the amended theorem applied at `x = [0]`, `y = [5]`,
`width = 0`, index 0 (an empty window). -/
theorem C9_amended_witness :
    ∃ L U, plot_band_fill_args [0] [5] 0 = some ([0], L, U) ∧
      L[0]? = some XReal.posInf ∧ U[0]? = some XReal.negInf :=
  C9_amended_sentinels_forwarded [0] [5] 0 rfl 0 0 rfl
    (fun _ _ _ => not_lt.mpr (abs_nonneg _))

/-- C10 amended: when `len(x_data) < len(y_data)` the computation completes
without error, both outputs have length `len(y_data)`, and every index from
`len(x_data)` on keeps its sentinels (only the zipped — first
`len(x_data)` — samples are ever scanned); when `len(x_data) > len(y_data)`
the computation can instead abort with an IndexError (see the
counterexample). -/
theorem C10_amended_truncation (x y : List ℚ) (w : ℚ)
    (h : x.length < y.length) :
    ∃ L U, plot_band x y w = some (L, U) ∧
      L.length = y.length ∧ U.length = y.length ∧
      ∀ i, x.length ≤ i → i < y.length →
        L[i]? = some XReal.posInf ∧ U[i]? = some XReal.negInf := by
  obtain ⟨L, U, hout, hL, hU, _, hrest⟩ := plot_band_eq x y w (le_of_lt h)
  exact ⟨L, U, hout, hL, hU, hrest⟩

/-- C10 amended witness: the amended theorem applied at `x = [0]`,
`y = [1, 2]`, `width = 1`. -/
theorem C10_amended_witness :
    ∃ L U, plot_band [0] [1, 2] 1 = some (L, U) ∧
      L.length = ([1, 2] : List ℚ).length ∧
      U.length = ([1, 2] : List ℚ).length ∧
      ∀ i, ([0] : List ℚ).length ≤ i → i < ([1, 2] : List ℚ).length →
        L[i]? = some XReal.posInf ∧ U[i]? = some XReal.negInf :=
  C10_amended_truncation [0] [1, 2] 1 (by norm_num)

end PlotMod
